import Mathlib

/-!
Shallow embedding of the deadpixi/rope Go library (value-based variant:
the `Rope` struct with fields `content`, `length`, `depth`, `left`, `right`,
together with the `ReadAt`/`Reader` code operating on it).

Bytes are modeled as `Nat`; Go strings / byte slices become `List Nat`.
A Go `Rope` value is either a leaf (left == nil, carrying `content`) or an
interior node carrying the cached `length` and `depth` fields and the two
children.  In every rope the Go code ever constructs, a leaf's cached
`length` equals `len(content)`, so leaves are modeled by their content
alone; the cached fields of interior nodes are modeled explicitly.
-/

namespace RopeGo

/-- A byte, modeled as a natural number. -/
abbrev Byte := Nat

/-- The Go `Rope` struct: a leaf (`left == nil`) holding `content`, or an
interior concatenation node holding cached `length` and `depth` plus two
children. -/
inductive Rope where
  | leaf (content : List Byte)
  | node (length depth : Nat) (left right : Rope)
deriving DecidableEq, Repr

namespace Rope

/-- `const maxLeafSize = 4096`. -/
def maxLeafSize : Nat := 4096

/-- `const maxDepth = 64`. -/
def maxDepth : Nat := 64

/-- `const balanceFactor = 8`. -/
def balanceFactor : Nat := 8

/-- Go `rope.Length()` / the `length` field: cached at interior nodes,
`len(content)` at leaves. -/
def length : Rope → Nat
  | leaf c => c.length
  | node len _ _ _ => len

/-- The `depth` field: 0 at leaves, cached at interior nodes. -/
def depth : Rope → Nat
  | leaf _ => 0
  | node _ d _ _ => d

/-- Go `rope.isLeaf()` (`rope.left == nil`). -/
def isLeaf : Rope → Bool
  | leaf _ => true
  | node _ _ _ _ => false

/-- Go `rope.String()` as a byte sequence: the in-order concatenation of
all leaf contents. -/
def toList : Rope → List Byte
  | leaf c => c
  | node _ _ l r => l.toList ++ r.toList

/-- The in-order list of leaf contents, as collected by the walk in
`Rope.Rebalance` (each collected leaf is determined by its content). -/
def leafContents : Rope → List (List Byte)
  | leaf c => [c]
  | node _ _ l r => l.leafContents ++ r.leafContents

/-- Well-formedness of the cached fields: at every interior node the cached
`length` is the sum of the children's lengths and the cached `depth` is one
more than the maximum child depth.  Every rope the Go code constructs
satisfies this. -/
def wf : Rope → Bool
  | leaf _ => true
  | node len d l r =>
      (len == l.length + r.length) && (d == max l.depth r.depth + 1) && l.wf && r.wf

/-- Fast Fibonacci: `fibPair n = (fib n, fib (n+1))` with `fib 0 = 0`,
`fib 1 = 1`. -/
def fibPair : Nat → Nat × Nat
  | 0 => (0, 1)
  | n + 1 => let p := fibPair n; (p.2, p.1 + p.2)

/-- The standard Fibonacci sequence (`fib 0 = 0`, `fib 1 = 1`). -/
def fib (n : Nat) : Nat := (fibPair n).1

/-- The `fibonacci` table built by the package `init()`: `maxDepth + 3`
entries, entry `c` holding `fib c`. -/
def fibonacci : List Nat := (List.range (maxDepth + 3)).map fib

/-- Go `rope.isBalanced()`:
`depth >= len(fibonacci)-2` is unbalanced; leaves are balanced; otherwise
balanced iff `fibonacci[depth+2] <= length`. -/
def isBalanced (r : Rope) : Bool :=
  if r.depth ≥ fibonacci.length - 2 then false
  else if r.isLeaf then true
  else decide (fibonacci.getD (r.depth + 2) 0 ≤ r.length)

/-- Go `abs(a - b)` on the (nonnegative) depths compared in
`rebalanceIfNeeded`. -/
def absDiff (a b : Nat) : Nat := max a b - min a b

/-!
`Append`, `rebalanceIfNeeded`, `Rebalance` and `merge` are mutually
recursive in the source (`merge` re-invokes `Append` on sub-merges, and
`Append` may re-enter `Rebalance`).  That recursion is not structural, so
it is embedded with a fuel parameter `g` that is consumed exactly when
`Append` enters `Rebalance`; if the fuel is exhausted the freshly built
node is returned without rebalancing.  On every input the Go code actually
reaches, the rebalance nesting is shallow, so any sufficiently large fuel
reproduces the source behavior; all content/length/depth lemmas below are
proved for every fuel value, including the cut-off branch.
-/

mutual

/-- Go `rope.Append(other)` followed by `rebalanceIfNeeded` (inlined):
empty sides are elided, short results are merged into a single leaf, and
otherwise a concat node with cached `length` and `depth` is built and
rebalanced when it is unbalanced and its children's depths differ by at
most `balanceFactor`.  The `match g` handles the non-structural entry into
`Rebalance` (whose leading `isBalanced` re-check is kept verbatim). -/
def appendG (g : Nat) (a b : Rope) : Rope :=
  if a.length = 0 then b
  else if b.length = 0 then a
  else if a.length + b.length ≤ maxLeafSize then .leaf (a.toList ++ b.toList)
  else
    let n : Rope := .node (a.length + b.length) (max a.depth b.depth + 1) a b
    if n.isLeaf || n.isBalanced || absDiff a.depth b.depth > balanceFactor then n
    else
      match g with
      | 0 => n
      | g' + 1 => if n.isBalanced then n else mergeG g' (a.leafContents ++ b.leafContents)
termination_by (g, 0)

/-- Go `merge(leaves, start, end)` on the in-order list of leaf contents:
one leaf is returned as is, two are appended, and longer lists are split at
`mid = start + length/2` and merged recursively.  (Go recurses forever on
an empty range; that case is unreachable, and is mapped to the empty
leaf.) -/
def mergeG (g : Nat) (L : List (List Byte)) : Rope :=
  if L.length = 1 then .leaf (L.getD 0 [])
  else if L.length = 2 then appendG g (.leaf (L.getD 0 [])) (.leaf (L.getD 1 []))
  else if L.length = 0 then .leaf []
  else appendG g (mergeG g (L.take (L.length / 2))) (mergeG g (L.drop (L.length / 2)))
termination_by (g, L.length + 1)
decreasing_by
  all_goals apply Prod.Lex.right
  all_goals first
    | omega
    | (simp only [List.length_take, List.length_drop]; omega)

end

/-- Fuel that is far beyond any rebalance nesting the source can reach. -/
def rebalanceFuel : Nat := 64

/-- Go `rope.Append(other)`. -/
def append (a b : Rope) : Rope := appendG (rebalanceFuel + 1) a b

/-- Go `rope.Rebalance()`: identity on balanced ropes, otherwise collect
the leaves in order and rebuild with `merge`. -/
def rebalance (r : Rope) : Rope :=
  if r.isBalanced then r else mergeG rebalanceFuel r.leafContents

/-- Go `rope.Split(at)`.  The index is a Go `int`; the out-of-range string
slicings `content[0:at]` / `content[at:]` at a leaf panic in Go, which is
modeled by `none`.  The cases appear in source order: leaf slicing first,
then `at == 0`, `at == rope.length`, the two strict comparisons against
`rope.left.length`, and the concat seam. -/
def split : Rope → Int → Option (Rope × Rope)
  | leaf c, i =>
      if 0 ≤ i ∧ i ≤ (c.length : Int) then
        some (.leaf (c.take i.toNat), .leaf (c.drop i.toNat))
      else none
  | node len d l r, i =>
      if i = 0 then some (.leaf [], .node len d l r)
      else if i = (len : Int) then some (.node len d l r, .leaf [])
      else if i < (l.length : Int) then
        (split l i).map fun p => (p.1, p.2.append r)
      else if (l.length : Int) < i then
        (split r (i - (l.length : Int))).map fun p => (l.append p.1, p.2)
      else some (l, r)

/-- Go `rope.Index(at)`: the out-of-range `content[at]` at a leaf panics,
modeled by `none`; concat nodes descend left or right by the cached left
length. -/
def index : Rope → Int → Option Byte
  | leaf c, i =>
      if 0 ≤ i ∧ i < (c.length : Int) then some (c.getD i.toNat 0) else none
  | node _ _ l r, i =>
      if i < (l.length : Int) then index l i
      else index r (i - (l.length : Int))

/-- Go `rope.Insert(at, other)`. -/
def insert (r : Rope) (i : Int) (other : Rope) : Option Rope :=
  if i = 0 then some (other.append r)
  else if i = (r.length : Int) then some (r.append other)
  else (r.split i).map fun p => (p.1.append other).append p.2

/-- Go `rope.Delete(offset, length)`. -/
def delete (r : Rope) (off len : Int) : Option Rope :=
  if len = 0 ∨ off = (r.length : Int) then some r
  else
    (r.split off).bind fun p =>
      (p.2.split len).map fun q => p.1.append q.2

/-- Go `rope.leafForOffset(at)`: descend to the leaf containing offset
`at`, returning its content and the offset within it. -/
def leafForOffset : Rope → Nat → List Byte × Nat
  | leaf c, i => (c, i)
  | node _ _ l r, i =>
      if i < l.length then leafForOffset l i
      else leafForOffset r (i - l.length)

/-- The loop of Go `rope.ReadAt(p, off)` (the variant whose loop condition
is `n < len(p) && o+n < rope.Length()`): repeatedly locate the leaf at
offset `o + n` and copy from it.  `plen` is `len(p)`, `n` the bytes read
so far and `acc` their values.  Each iteration copies
`min(plen - n, len(content) - at)` bytes; if that count is zero the Go
loop never terminates, which cannot happen for well-formed ropes, and is
mapped to stopping. -/
def readLoop (r : Rope) (plen o : Nat) (n : Nat) (acc : List Byte) :
    Nat × List Byte :=
  if h : n < plen ∧ o + n < r.length then
    let p := leafForOffset r (o + n)
    let chunk := (p.1.drop p.2).take (plen - n)
    if hc : chunk.length = 0 then (n, acc)
    else readLoop r plen o (n + chunk.length) (acc ++ chunk)
  else (n, acc)
termination_by plen - n
decreasing_by
  have hc2 :
      ¬(List.take (plen - n)
          (List.drop (r.leafForOffset (o + n)).2 (r.leafForOffset (o + n)).1)).length = 0 := hc
  omega

/-- Go `rope.ReadAt(p, off)` for a buffer of length `plen`: the count of
bytes read, their values, and whether `io.EOF` was returned (`n < len(p)`
after the loop). -/
def readAt (r : Rope) (plen off : Nat) : Nat × List Byte × Bool :=
  let p := readLoop r plen off 0 []
  (p.1, p.2, decide (p.1 < plen))

/-- Go `rope.Slice(a, b)`: allocate `b - a` zero bytes, `ReadAt` into them
(both results discarded), and return the whole buffer — the bytes actually
read followed by the untouched zeros. -/
def slice (r : Rope) (a b : Nat) : List Byte :=
  let p := readAt r (b - a) a
  p.2.1 ++ List.replicate ((b - a) - p.1) 0

/-- The chunk loop of Go `rope.Equal(other)`:
`for i := 0; i < rope.length; i += maxLeafSize` comparing
`rope.Slice(i, i+maxLeafSize)` with `other.Slice(i, i+maxLeafSize)`. -/
def equalChunks (a b : Rope) (i : Nat) : Bool :=
  if i < a.length then
    if slice a i (i + maxLeafSize) = slice b i (i + maxLeafSize) then
      equalChunks a b (i + maxLeafSize)
    else false
  else true
termination_by a.length - i
decreasing_by
  simp_wf
  simp only [maxLeafSize] at *
  omega

/-- Go `rope.Equal(other)`: the `rope == other` identity shortcut (Go
compares the struct fields, including the child pointers; structural
equality is the value-level analog and agrees with the final outcome),
then the cached-length comparison, then the chunked byte comparison. -/
def equal (a b : Rope) : Bool :=
  if a = b then true
  else if a.length ≠ b.length then false
  else equalChunks a b 0

/-- Go `Reader.Read(p)` acting on a reader over rope `r` at offset `pos`:
delegate to `ReadAt` at the current position, and advance the position by
`n` only when no error was returned.  Yields the `(n, bytes, err)` result
together with the new position. -/
def readerRead (r : Rope) (pos : Nat) (plen : Nat) :
    (Nat × List Byte × Bool) × Nat :=
  let res := readAt r plen pos
  (res, if res.2.2 then pos else pos + res.1)

/-- Ropes reachable from `New()` / `NewString(s)` by the public operations
`Append`, `Split`, `Insert` and `Delete`. -/
inductive Reachable : Rope → Prop where
  | new : Reachable (.leaf [])
  | fromBytes (s : List Byte) : Reachable (.leaf s)
  | append {a b : Rope} : Reachable a → Reachable b → Reachable (a.append b)
  | splitLeft {r : Rope} {i : Int} {l rr : Rope} :
      Reachable r → r.split i = some (l, rr) → Reachable l
  | splitRight {r : Rope} {i : Int} {l rr : Rope} :
      Reachable r → r.split i = some (l, rr) → Reachable rr
  | insert {r o : Rope} {i : Int} {r' : Rope} :
      Reachable r → Reachable o → r.insert i o = some r' → Reachable r'
  | delete {r : Rope} {off len : Int} {r' : Rope} :
      Reachable r → r.delete off len = some r' → Reachable r'

/-! ### Basic facts about the embedding -/

lemma wf_node {len d : Nat} {l r : Rope} :
    wf (.node len d l r) = true ↔
      len = l.length + r.length ∧ d = max l.depth r.depth + 1 ∧
        wf l = true ∧ wf r = true := by
  simp [wf, Bool.and_eq_true, beq_iff_eq, and_assoc]

lemma toList_length {r : Rope} (h : r.wf = true) : r.toList.length = r.length := by
  induction r with
  | leaf c => simp [toList, length]
  | node len d l r ihl ihr =>
      rw [wf_node] at h
      obtain ⟨h1, _, hl, hr⟩ := h
      simp [toList, length, List.length_append, ihl hl, ihr hr, h1]

lemma toList_eq_nil_of_length_zero {r : Rope} (h : r.wf = true)
    (h0 : r.length = 0) : r.toList = [] := by
  have := toList_length h
  rw [h0] at this
  exact List.length_eq_zero.mp this

lemma leafContents_flatten (r : Rope) : r.leafContents.flatten = r.toList := by
  induction r with
  | leaf c => simp [leafContents, toList]
  | node len d l r ihl ihr =>
      simp [leafContents, toList, List.flatten_append, ihl, ihr]

lemma leafContents_pos (r : Rope) : 0 < r.leafContents.length := by
  induction r with
  | leaf c => simp [leafContents]
  | node len d l r ihl ihr =>
      simp only [leafContents, List.length_append]
      omega

lemma leafContents_le {r : Rope} (h : r.wf = true) :
    r.leafContents.length ≤ 2 ^ r.depth := by
  induction r with
  | leaf c => simp [leafContents, depth]
  | node len d l r ihl ihr =>
      rw [wf_node] at h
      obtain ⟨-, h2, hl, hr⟩ := h
      subst h2
      have Hl := ihl hl
      have Hr := ihr hr
      have hml : 2 ^ l.depth ≤ 2 ^ max l.depth r.depth :=
        Nat.pow_le_pow_right (by omega) (le_max_left _ _)
      have hmr : 2 ^ r.depth ≤ 2 ^ max l.depth r.depth :=
        Nat.pow_le_pow_right (by omega) (le_max_right _ _)
      have hp : 2 ^ (max l.depth r.depth + 1) = 2 ^ max l.depth r.depth * 2 :=
        pow_succ 2 _
      have hdep : depth (.node len (max l.depth r.depth + 1) l r)
          = max l.depth r.depth + 1 := rfl
      simp only [leafContents, List.length_append, hdep]
      omega

/-! ### The master lemma for `Append` / `Rebalance` / `merge`

The three conjuncts (well-formedness, byte content, depth bound) hold for
every fuel value, because the fuel-exhaustion branch returns the freshly
built node, which also satisfies them. -/

/-- The properties of `appendG` at fuel `g` needed by every claim. -/
def AppendP (g : Nat) : Prop :=
  ∀ a b : Rope, a.wf = true → b.wf = true →
    (appendG g a b).wf = true ∧
    (appendG g a b).toList = a.toList ++ b.toList ∧
    (appendG g a b).depth ≤ max a.depth b.depth + 1

/-- The properties of `mergeG` at fuel `g` needed by every claim. -/
def MergeP (g : Nat) : Prop :=
  ∀ L : List (List Byte),
    (mergeG g L).wf = true ∧
    (mergeG g L).toList = L.flatten ∧
    ∀ d : Nat, 0 < L.length → L.length ≤ 2 ^ d → (mergeG g L).depth ≤ d

/-- One-step unfolding of `mergeG` in the default (length at least 3)
branch. -/
lemma mergeG_big {g : Nat} {L : List (List Byte)} (h : 3 ≤ L.length) :
    mergeG g L =
      appendG g (mergeG g (L.take (L.length / 2))) (mergeG g (L.drop (L.length / 2))) := by
  rw [mergeG, if_neg (by omega), if_neg (by omega), if_neg (by omega)]

set_option maxHeartbeats 1000000 in
lemma appendP_step (g : Nat) (hM : ∀ g', g' < g → MergeP g') : AppendP g := by
  intro a b ha hb
  by_cases h0 : a.length = 0
  · have e : appendG g a b = b := by rw [appendG, if_pos h0]
    have hnil := toList_eq_nil_of_length_zero ha h0
    rw [e]
    exact ⟨hb, by rw [hnil]; simp, by omega⟩
  by_cases h1 : b.length = 0
  · have e : appendG g a b = a := by rw [appendG, if_neg h0, if_pos h1]
    have hnil := toList_eq_nil_of_length_zero hb h1
    rw [e]
    exact ⟨ha, by rw [hnil]; simp, by omega⟩
  by_cases h2 : a.length + b.length ≤ maxLeafSize
  · have e : appendG g a b = .leaf (a.toList ++ b.toList) := by
      rw [appendG, if_neg h0, if_neg h1, if_pos h2]
    rw [e]
    exact ⟨rfl, rfl, Nat.zero_le _⟩
  · have hnode : wf (.node (a.length + b.length) (max a.depth b.depth + 1) a b) = true :=
      wf_node.mpr ⟨rfl, rfl, ha, hb⟩
    by_cases h3 :
        ((Rope.node (a.length + b.length) (max a.depth b.depth + 1) a b).isLeaf
          || (Rope.node (a.length + b.length) (max a.depth b.depth + 1) a b).isBalanced
          || decide (absDiff a.depth b.depth > balanceFactor)) = true
    · have e : appendG g a b = .node (a.length + b.length) (max a.depth b.depth + 1) a b := by
        rw [appendG, if_neg h0, if_neg h1, if_neg h2]
        exact if_pos h3
      rw [e]
      exact ⟨hnode, rfl, Nat.le_refl _⟩
    · cases g with
      | zero =>
          have e : appendG 0 a b = .node (a.length + b.length) (max a.depth b.depth + 1) a b := by
            rw [appendG, if_neg h0, if_neg h1, if_neg h2]
            exact if_neg h3
          rw [e]
          exact ⟨hnode, rfl, Nat.le_refl _⟩
      | succ g' =>
          by_cases h4 :
              (Rope.node (a.length + b.length) (max a.depth b.depth + 1) a b).isBalanced = true
          · have e : appendG (g' + 1) a b =
                .node (a.length + b.length) (max a.depth b.depth + 1) a b := by
              rw [appendG, if_neg h0, if_neg h1, if_neg h2, if_neg h3]
              exact if_pos h4
            rw [e]
            exact ⟨hnode, rfl, Nat.le_refl _⟩
          · have e : appendG (g' + 1) a b = mergeG g' (a.leafContents ++ b.leafContents) := by
              rw [appendG, if_neg h0, if_neg h1, if_neg h2, if_neg h3]
              exact if_neg h4
            rw [e]
            obtain ⟨hw, ht, hd⟩ :=
              hM g' (Nat.lt_succ_self g') (a.leafContents ++ b.leafContents)
            refine ⟨hw, ?_, ?_⟩
            · rw [ht, List.flatten_append, leafContents_flatten, leafContents_flatten]
            · apply hd
              · simp only [List.length_append]
                have := leafContents_pos a
                omega
              · simp only [List.length_append]
                have hla := leafContents_le ha
                have hlb := leafContents_le hb
                have hml : 2 ^ a.depth ≤ 2 ^ max a.depth b.depth :=
                  Nat.pow_le_pow_right (by omega) (le_max_left _ _)
                have hmr : 2 ^ b.depth ≤ 2 ^ max a.depth b.depth :=
                  Nat.pow_le_pow_right (by omega) (le_max_right _ _)
                have hp : 2 ^ (max a.depth b.depth + 1) = 2 ^ max a.depth b.depth * 2 :=
                  pow_succ 2 _
                omega

set_option maxHeartbeats 1000000 in
lemma mergeP_step (g : Nat) (hA : AppendP g) : MergeP g := by
  suffices H : ∀ n L, L.length = n →
      (mergeG g L).wf = true ∧ (mergeG g L).toList = L.flatten ∧
      ∀ d : Nat, 0 < L.length → L.length ≤ 2 ^ d → (mergeG g L).depth ≤ d by
    intro L; exact H L.length L rfl
  intro n
  induction n using Nat.strong_induction_on with
  | _ n ih =>
    intro L hL
    by_cases h1 : L.length = 1
    · obtain ⟨c, rfl⟩ := List.length_eq_one.mp h1
      have e : mergeG g [c] = .leaf c := by rw [mergeG]; simp
      rw [e]
      exact ⟨rfl, by simp [toList], fun d _ _ => Nat.zero_le d⟩
    by_cases h2 : L.length = 2
    · obtain ⟨c₁, c₂, rfl⟩ := List.length_eq_two.mp h2
      have e : mergeG g [c₁, c₂] = appendG g (.leaf c₁) (.leaf c₂) := by
        rw [mergeG]; simp
      obtain ⟨hw, ht, hd⟩ := hA (.leaf c₁) (.leaf c₂) rfl rfl
      have hd1 : (appendG g (.leaf c₁) (.leaf c₂)).depth ≤ 1 := by
        simpa using hd
      rw [e]
      refine ⟨hw, ?_, ?_⟩
      · rw [ht]; simp [toList]
      · intro d hpos hle
        match d with
        | 0 => simp at hle
        | e' + 1 => omega
    by_cases h3 : L.length = 0
    · have hnil : L = [] := List.length_eq_zero.mp h3
      subst hnil
      have e : mergeG g ([] : List (List Byte)) = .leaf [] := by rw [mergeG]; simp
      rw [e]
      exact ⟨rfl, by simp [toList], fun d _ _ => Nat.zero_le d⟩
    · have h4 : 3 ≤ L.length := by omega
      have e : mergeG g L =
          appendG g (mergeG g (L.take (L.length / 2))) (mergeG g (L.drop (L.length / 2))) :=
        mergeG_big h4
      have hkt : (L.take (L.length / 2)).length = L.length / 2 := by
        rw [List.length_take]; omega
      have hkd : (L.drop (L.length / 2)).length = L.length - L.length / 2 :=
        List.length_drop _ _
      obtain ⟨hwt, htt, hdt⟩ := ih (L.length / 2) (by omega) _ hkt
      obtain ⟨hwd, htd, hdd⟩ := ih (L.length - L.length / 2) (by omega) _ hkd
      obtain ⟨hw, ht, hd⟩ := hA _ _ hwt hwd
      rw [e]
      refine ⟨hw, ?_, ?_⟩
      · rw [ht, htt, htd, ← List.flatten_append, List.take_append_drop]
      · intro d hpos hle
        match d with
        | 0 =>
            have h20 : (2:Nat) ^ 0 = 1 := rfl
            omega
        | 1 =>
            have h21 : (2:Nat) ^ 1 = 2 := rfl
            omega
        | e' + 2 =>
            have hp : (2:Nat) ^ (e' + 2) = 2 ^ (e' + 1) * 2 := pow_succ 2 _
            have hdt2 : (mergeG g (L.take (L.length / 2))).depth ≤ e' + 1 := by
              apply hdt
              · omega
              · omega
            have hdd2 : (mergeG g (L.drop (L.length / 2))).depth ≤ e' + 1 := by
              apply hdd
              · omega
              · omega
            omega


lemma appendG_mergeG_ok : ∀ g, AppendP g ∧ MergeP g := by
  intro g
  induction g using Nat.strong_induction_on with
  | _ g ih =>
    have hA : AppendP g := appendP_step g (fun g' hg' => (ih g' hg').2)
    exact ⟨hA, mergeP_step g hA⟩

lemma append_wf {a b : Rope} (ha : a.wf = true) (hb : b.wf = true) :
    (a.append b).wf = true :=
  (((appendG_mergeG_ok _).1) a b ha hb).1

lemma append_toList {a b : Rope} (ha : a.wf = true) (hb : b.wf = true) :
    (a.append b).toList = a.toList ++ b.toList :=
  (((appendG_mergeG_ok _).1) a b ha hb).2.1

lemma append_depth {a b : Rope} (ha : a.wf = true) (hb : b.wf = true) :
    (a.append b).depth ≤ max a.depth b.depth + 1 :=
  (((appendG_mergeG_ok _).1) a b ha hb).2.2

lemma append_length {a b : Rope} (ha : a.wf = true) (hb : b.wf = true) :
    (a.append b).length = a.length + b.length := by
  have h := toList_length (append_wf ha hb)
  rw [append_toList ha hb, List.length_append, toList_length ha, toList_length hb] at h
  omega

/-! ### Correctness of `Split` -/

/-- Master lemma for `Split` on valid indices of well-formed ropes: the
split succeeds and the two parts are well-formed, their lengths sum to the
original length, their contents concatenate to the original contents, and
neither is deeper than the original. -/
lemma split_ok : ∀ (r : Rope), r.wf = true → ∀ i : Int,
    0 ≤ i → i ≤ (r.length : Int) →
    ∃ l rr, r.split i = some (l, rr) ∧ l.wf = true ∧ rr.wf = true ∧
      l.length + rr.length = r.length ∧ l.toList ++ rr.toList = r.toList ∧
      l.depth ≤ r.depth ∧ rr.depth ≤ r.depth := by
  intro r
  induction r with
  | leaf c =>
      intro _ i h0 h1
      simp only [length] at h1
      refine ⟨.leaf (c.take i.toNat), .leaf (c.drop i.toNat), ?_, rfl, rfl, ?_, ?_, ?_, ?_⟩
      · rw [split, if_pos ⟨h0, h1⟩]
      · have hle : i.toNat ≤ c.length := Int.toNat_le.mpr h1
        simp only [length, List.length_take, List.length_drop]
        omega
      · simp only [toList, List.take_append_drop]
      · exact Nat.le_refl _
      · exact Nat.le_refl _
  | node len d l r ihl ihr =>
      intro hwf i h0 h1
      have hwf2 := hwf
      rw [wf_node] at hwf2
      obtain ⟨hlen, hdep, hl, hr⟩ := hwf2
      simp only [length] at h1
      by_cases hi0 : i = 0
      · refine ⟨.leaf [], .node len d l r, ?_, rfl, hwf, ?_, ?_, ?_, ?_⟩
        · rw [split, if_pos hi0]
        · simp [length]
        · simp [toList]
        · exact Nat.zero_le _
        · exact Nat.le_refl _
      by_cases hi1 : i = (len : Int)
      · refine ⟨.node len d l r, .leaf [], ?_, hwf, rfl, ?_, ?_, ?_, ?_⟩
        · rw [split, if_neg hi0, if_pos hi1]
        · simp [length]
        · simp [toList]
        · exact Nat.le_refl _
        · exact Nat.zero_le _
      by_cases hi2 : i < (l.length : Int)
      · obtain ⟨ll, lr, el, wfll, wflr, hlen2, htl, hdll, hdlr⟩ :=
          ihl hl i h0 (le_of_lt hi2)
        refine ⟨ll, lr.append r, ?_, wfll, append_wf wflr hr, ?_, ?_, ?_, ?_⟩
        · rw [split, if_neg hi0, if_neg hi1, if_pos hi2, el, Option.map_some']
        · have := append_length wflr hr
          simp only [length] at *
          omega
        · simp only [toList]
          rw [append_toList wflr hr, ← List.append_assoc, htl]
        · have hd : (Rope.node len d l r).depth = d := rfl
          rw [hd]
          omega
        · have hap := append_depth wflr hr
          have hd : (Rope.node len d l r).depth = d := rfl
          rw [hd]
          omega
      by_cases hi3 : (l.length : Int) < i
      · have hb0 : 0 ≤ i - (l.length : Int) := by omega
        have hb1 : i - (l.length : Int) ≤ (r.length : Int) := by
          have : (len : Int) = (l.length : Int) + (r.length : Int) := by
            rw [hlen]; push_cast; ring
          omega
        obtain ⟨rl, rr, er, wfrl, wfrr, hlen2, htr, hdrl, hdrr⟩ :=
          ihr hr (i - (l.length : Int)) hb0 hb1
        refine ⟨l.append rl, rr, ?_, append_wf hl wfrl, wfrr, ?_, ?_, ?_, ?_⟩
        · rw [split, if_neg hi0, if_neg hi1, if_neg (by omega), if_pos hi3, er,
            Option.map_some']
        · have := append_length hl wfrl
          simp only [length] at *
          omega
        · simp only [toList]
          rw [append_toList hl wfrl, List.append_assoc, htr]
        · have hap := append_depth hl wfrl
          have hd : (Rope.node len d l r).depth = d := rfl
          rw [hd]
          omega
        · have hd : (Rope.node len d l r).depth = d := rfl
          rw [hd]
          omega
      · refine ⟨l, r, ?_, hl, hr, ?_, ?_, ?_, ?_⟩
        · rw [split, if_neg hi0, if_neg hi1, if_neg hi2, if_neg hi3]
        · have hL : (Rope.node len d l r).length = len := rfl
          rw [hL]
          omega
        · simp only [toList]
        · have hd : (Rope.node len d l r).depth = d := rfl
          rw [hd]
          omega
        · have hd : (Rope.node len d l r).depth = d := rfl
          rw [hd]
          omega

/-- `Split` fails (Go: panics on the out-of-range leaf slicing) whenever
the index is outside `[0, length]`. -/
lemma split_oob : ∀ (r : Rope), r.wf = true → ∀ i : Int,
    (i < 0 ∨ (r.length : Int) < i) → r.split i = none := by
  intro r
  induction r with
  | leaf c =>
      intro _ i hi
      simp only [length] at hi
      rw [split, if_neg (by omega)]
  | node len d l r ihl ihr =>
      intro hwf i hi
      rw [wf_node] at hwf
      obtain ⟨hlen, hdep, hl, hr⟩ := hwf
      simp only [length] at hi
      have hcast : (len : Int) = (l.length : Int) + (r.length : Int) := by
        rw [hlen]; push_cast; ring
      rcases hi with hneg | hgt
      · rw [split, if_neg (by omega), if_neg (by omega), if_pos (by omega),
          ihl hl i (Or.inl hneg)]
        rfl
      · rw [split, if_neg (by omega), if_neg (by omega), if_neg (by omega),
          if_pos (by omega), ihr hr _ (Or.inr (by omega))]
        rfl

/-- `Index` fails (Go: panics on the out-of-range leaf access) whenever the
index is outside `[0, length)`. -/
lemma index_oob : ∀ (r : Rope), r.wf = true → ∀ i : Int,
    (i < 0 ∨ (r.length : Int) ≤ i) → r.index i = none := by
  intro r
  induction r with
  | leaf c =>
      intro _ i hi
      simp only [length] at hi
      rw [index, if_neg (by omega)]
  | node len d l r ihl ihr =>
      intro hwf i hi
      rw [wf_node] at hwf
      obtain ⟨hlen, hdep, hl, hr⟩ := hwf
      simp only [length] at hi
      have hcast : (len : Int) = (l.length : Int) + (r.length : Int) := by
        rw [hlen]; push_cast; ring
      rcases hi with hneg | hge
      · rw [index, if_pos (by omega)]
        exact ihl hl i (Or.inl hneg)
      · by_cases hil : i < (l.length : Int)
        · rw [index, if_pos hil]
          exact ihl hl i (Or.inr (by omega))
        · rw [index, if_neg hil]
          exact ihr hr _ (Or.inr (by omega))

/-! ### Correctness of `ReadAt` -/

/-- `leafForOffset` on a valid offset of a well-formed rope finds a leaf
with a strictly positive remaining run, that run lies inside the rope, and
the rope's bytes from the offset start with exactly that run. -/
lemma leafForOffset_spec : ∀ (r : Rope), r.wf = true → ∀ i : Nat, i < r.length →
    (r.leafForOffset i).2 < (r.leafForOffset i).1.length ∧
    i + ((r.leafForOffset i).1.length - (r.leafForOffset i).2) ≤ r.length ∧
    r.toList.drop i =
      (r.leafForOffset i).1.drop (r.leafForOffset i).2 ++
        r.toList.drop (i + ((r.leafForOffset i).1.length - (r.leafForOffset i).2)) := by
  intro r
  induction r with
  | leaf c =>
      intro _ i hi
      simp only [length] at hi
      refine ⟨hi, ?_, ?_⟩
      · show i + (c.length - i) ≤ (Rope.leaf c).length
        simp only [length]
        omega
      · show c.drop i = c.drop i ++ c.drop (i + (c.length - i))
        have he : i + (c.length - i) = c.length := by omega
        rw [he, List.drop_length, List.append_nil]
  | node len d l r ihl ihr =>
      intro hwf i hi
      rw [wf_node] at hwf
      obtain ⟨hlen, hdep, hl, hr⟩ := hwf
      have hL : (Rope.node len d l r).length = len := rfl
      rw [hL] at hi
      have hTl : l.toList.length = l.length := toList_length hl
      have hTr : r.toList.length = r.length := toList_length hr
      by_cases hil : i < l.length
      · have e : leafForOffset (.node len d l r) i = leafForOffset l i := by
          rw [leafForOffset, if_pos hil]
        obtain ⟨h1, h2, h3⟩ := ihl hl i hil
        rw [e]
        refine ⟨h1, ?_, ?_⟩
        · rw [hL]
          omega
        · show (l.toList ++ r.toList).drop i = _ ++ (l.toList ++ r.toList).drop _
          have hdl : (l.toList ++ r.toList).drop i = l.toList.drop i ++ r.toList :=
            List.drop_append_of_le_length (by omega)
          have hdl2 : (l.toList ++ r.toList).drop
                (i + ((l.leafForOffset i).1.length - (l.leafForOffset i).2))
              = l.toList.drop (i + ((l.leafForOffset i).1.length - (l.leafForOffset i).2))
                ++ r.toList :=
            List.drop_append_of_le_length (by omega)
          rw [hdl, hdl2, h3, List.append_assoc]
      · have hil2 : l.length ≤ i := Nat.le_of_not_lt hil
        have e : leafForOffset (.node len d l r) i = leafForOffset r (i - l.length) := by
          rw [leafForOffset, if_neg hil]
        have hisub : i - l.length < r.length := by omega
        obtain ⟨h1, h2, h3⟩ := ihr hr (i - l.length) hisub
        rw [e]
        refine ⟨h1, ?_, ?_⟩
        · rw [hL]
          omega
        · show (l.toList ++ r.toList).drop i = _ ++ (l.toList ++ r.toList).drop _
          have g1 : (l.toList ++ r.toList).drop i = r.toList.drop (i - l.length) := by
            conv_lhs => rw [show i = l.toList.length + (i - l.length) by omega]
            exact List.drop_append _
          have g2 : (l.toList ++ r.toList).drop
                (i + ((r.leafForOffset (i - l.length)).1.length
                  - (r.leafForOffset (i - l.length)).2))
              = r.toList.drop ((i - l.length)
                  + ((r.leafForOffset (i - l.length)).1.length
                    - (r.leafForOffset (i - l.length)).2)) := by
            conv_lhs =>
              rw [show i + ((r.leafForOffset (i - l.length)).1.length
                    - (r.leafForOffset (i - l.length)).2)
                  = l.toList.length + ((i - l.length)
                    + ((r.leafForOffset (i - l.length)).1.length
                      - (r.leafForOffset (i - l.length)).2)) by omega]
            exact List.drop_append _
          rw [g1, g2, h3]

/-- Invariant of the `ReadAt` loop on a well-formed rope: starting from
`n` bytes already read, the loop reads up to
`N = min plen (length - o)` bytes in total, appending exactly the rope's
bytes from offset `o + n` to the accumulator. -/
lemma readLoop_spec (r : Rope) (hwf : r.wf = true) (plen o : Nat) :
    ∀ n acc, readLoop r plen o n acc =
      (max n (min plen (r.length - o)),
       acc ++ (r.toList.drop (o + n)).take (min plen (r.length - o) - n)) := by
  suffices H : ∀ m n acc, plen - n = m →
      readLoop r plen o n acc =
        (max n (min plen (r.length - o)),
         acc ++ (r.toList.drop (o + n)).take (min plen (r.length - o) - n)) by
    intro n acc
    exact H (plen - n) n acc rfl
  intro m
  induction m using Nat.strong_induction_on with
  | _ m ih =>
    intro n acc hm
    by_cases hcond : n < plen ∧ o + n < r.length
    · obtain ⟨h1, h2, h3⟩ := leafForOffset_spec r hwf (o + n) hcond.2
      have hCH : ((r.leafForOffset (o + n)).1.drop (r.leafForOffset (o + n)).2).length
          = (r.leafForOffset (o + n)).1.length - (r.leafForOffset (o + n)).2 :=
        List.length_drop _ _
      have hclen : (((r.leafForOffset (o + n)).1.drop (r.leafForOffset (o + n)).2).take
            (plen - n)).length
          = min (plen - n)
              ((r.leafForOffset (o + n)).1.length - (r.leafForOffset (o + n)).2) := by
        rw [List.length_take, hCH]
      have hclpos : 0 < (((r.leafForOffset (o + n)).1.drop (r.leafForOffset (o + n)).2).take
          (plen - n)).length := by
        rw [hclen]
        have := hcond.1
        omega
      have e : readLoop r plen o n acc =
          readLoop r plen o
            (n + (((r.leafForOffset (o + n)).1.drop (r.leafForOffset (o + n)).2).take
              (plen - n)).length)
            (acc ++ ((r.leafForOffset (o + n)).1.drop (r.leafForOffset (o + n)).2).take
              (plen - n)) := by
        rw [readLoop, dif_pos hcond, dif_neg (by omega)]
      rw [e, ih (plen - (n + (((r.leafForOffset (o + n)).1.drop
            (r.leafForOffset (o + n)).2).take (plen - n)).length))
          (by have := hcond.1; omega) _ _ rfl]
      have hnN : n < min plen (r.length - o) := by
        have := hcond.1
        have := hcond.2
        omega
      have hclN : n + (((r.leafForOffset (o + n)).1.drop (r.leafForOffset (o + n)).2).take
          (plen - n)).length ≤ min plen (r.length - o) := by
        rw [hclen]
        omega
      refine Prod.ext ?_ ?_
      · show max _ _ = max n _
        omega
      · show (acc ++ _) ++ _ = acc ++ _
        rw [List.append_assoc]
        congr 1
        rw [show min plen (r.length - o) - n
            = (((r.leafForOffset (o + n)).1.drop (r.leafForOffset (o + n)).2).take
                (plen - n)).length
              + (min plen (r.length - o) - n
                - (((r.leafForOffset (o + n)).1.drop (r.leafForOffset (o + n)).2).take
                  (plen - n)).length) by omega]
        rw [List.take_add]
        congr 1
        · rw [h3, List.take_append_of_le_length (by rw [hclen, hCH]; omega)]
          rcases Nat.le_total (plen - n)
              ((r.leafForOffset (o + n)).1.length - (r.leafForOffset (o + n)).2) with
            hle | hle
          · rw [hclen, Nat.min_eq_left hle]
          · have e1 : ((r.leafForOffset (o + n)).1.drop (r.leafForOffset (o + n)).2).take
                  (plen - n)
                = (r.leafForOffset (o + n)).1.drop (r.leafForOffset (o + n)).2 :=
              List.take_of_length_le (by rw [hCH]; omega)
            have e2 : ((r.leafForOffset (o + n)).1.drop (r.leafForOffset (o + n)).2).take
                  ((r.leafForOffset (o + n)).1.length - (r.leafForOffset (o + n)).2)
                = (r.leafForOffset (o + n)).1.drop (r.leafForOffset (o + n)).2 :=
              List.take_of_length_le (by rw [hCH])
            rw [hclen, Nat.min_eq_right hle, e2, e1]
        · congr 1
          · omega
          · rw [List.drop_drop]
            congr 1
            omega
    · have e : readLoop r plen o n acc = (n, acc) := by
        rw [readLoop, dif_neg hcond]
      rw [e]
      have hge : min plen (r.length - o) ≤ n := by
        rcases Nat.lt_or_ge n plen with hlt | hge2
        · have : ¬ o + n < r.length := fun hc => hcond ⟨hlt, hc⟩
          omega
        · omega
      refine Prod.ext ?_ ?_
      · show n = max n _
        omega
      · show acc = acc ++ _
        rw [show min plen (r.length - o) - n = 0 by omega, List.take_zero,
          List.append_nil]

/-- `ReadAt` on a well-formed rope: it reads
`n = min(len(p), length - off)` bytes (Go's `max(0, ...)` is the truncated
natural subtraction), those bytes are the rope's bytes starting at `off`,
and `io.EOF` is returned exactly when `n < len(p)`. -/
lemma readAt_spec (r : Rope) (hwf : r.wf = true) (plen off : Nat) :
    readAt r plen off =
      (min plen (r.length - off),
       (r.toList.drop off).take (min plen (r.length - off)),
       decide (min plen (r.length - off) < plen)) := by
  have h := readLoop_spec r hwf plen off 0 []
  rw [readAt, h]
  simp

/-- `Slice` on a well-formed rope returns the requested window of the
rope's bytes padded with zeros to length `b - a`. -/
lemma slice_spec (r : Rope) (hwf : r.wf = true) (a b : Nat) :
    slice r a b = (r.toList.drop a ++ List.replicate (b - a) 0).take (b - a) := by
  rw [slice, readAt_spec r hwf]
  have hD : (r.toList.drop a).length = r.length - a := by
    rw [List.length_drop, toList_length hwf]
  rcases Nat.le_total (b - a) (r.length - a) with hle | hle
  · rw [Nat.min_eq_left hle, List.take_append_of_le_length (by omega),
      show (b - a) - (b - a) = 0 by omega, List.replicate_zero, List.append_nil]
  · have e1 : (r.toList.drop a).take (r.length - a) = r.toList.drop a :=
      List.take_of_length_le (by omega)
    rw [Nat.min_eq_right hle, e1, List.take_append_eq_append_take,
      List.take_of_length_le (by omega), List.take_replicate, hD,
      Nat.min_eq_left (by omega)]

/-- The `Slice`-based chunk comparison in `Equal` agrees with comparing the
corresponding windows of the byte sequences, for ropes of equal length
(the zero padding of the two slices then coincides). -/
lemma slice_chunk_iff (a b : Rope) (hwa : a.wf = true) (hwb : b.wf = true)
    (hLen : a.length = b.length) (i : Nat) :
    (slice a i (i + maxLeafSize) = slice b i (i + maxLeafSize)) ↔
      (a.toList.drop i).take maxLeafSize = (b.toList.drop i).take maxLeafSize := by
  have hM : (i + maxLeafSize) - i = maxLeafSize := by omega
  rw [slice_spec a hwa, slice_spec b hwb, hM]
  have hDa : (a.toList.drop i).length = a.length - i := by
    rw [List.length_drop, toList_length hwa]
  have hDb : (b.toList.drop i).length = b.length - i := by
    rw [List.length_drop, toList_length hwb]
  rw [List.take_append_eq_append_take, List.take_append_eq_append_take,
    List.take_replicate, List.take_replicate, hDa, hDb, hLen]
  exact List.append_left_inj _

/-- The chunk loop of `Equal` is equivalent to comparing the byte
sequences from position `i` on, for well-formed ropes of equal cached
length. -/
lemma equalChunks_spec (a b : Rope) (hwa : a.wf = true) (hwb : b.wf = true)
    (hLen : a.length = b.length) :
    ∀ i, (equalChunks a b i = true ↔ a.toList.drop i = b.toList.drop i) := by
  suffices H : ∀ m i, a.length - i = m →
      (equalChunks a b i = true ↔ a.toList.drop i = b.toList.drop i) by
    intro i
    exact H (a.length - i) i rfl
  intro m
  induction m using Nat.strong_induction_on with
  | _ m ih =>
    intro i hm
    by_cases hlt : i < a.length
    · have hstep : equalChunks a b i =
          if slice a i (i + maxLeafSize) = slice b i (i + maxLeafSize) then
            equalChunks a b (i + maxLeafSize)
          else false := by
        rw [equalChunks, if_pos hlt]
      have hMpos : 0 < maxLeafSize := by decide
      have hrec := ih (a.length - (i + maxLeafSize)) (by omega) (i + maxLeafSize) rfl
      have hsplitA : a.toList.drop i =
          (a.toList.drop i).take maxLeafSize ++ a.toList.drop (i + maxLeafSize) := by
        conv_lhs => rw [← List.take_append_drop maxLeafSize (a.toList.drop i)]
        rw [List.drop_drop, Nat.add_comm]
      have hsplitB : b.toList.drop i =
          (b.toList.drop i).take maxLeafSize ++ b.toList.drop (i + maxLeafSize) := by
        conv_lhs => rw [← List.take_append_drop maxLeafSize (b.toList.drop i)]
        rw [List.drop_drop, Nat.add_comm]
      by_cases hchunk : slice a i (i + maxLeafSize) = slice b i (i + maxLeafSize)
      · rw [hstep, if_pos hchunk]
        have hck := (slice_chunk_iff a b hwa hwb hLen i).mp hchunk
        rw [hrec]
        constructor
        · intro htail
          rw [hsplitA, hsplitB, hck, htail]
        · intro hall
          rw [hsplitA, hsplitB, hck] at hall
          exact (List.append_right_inj _).mp hall
      · rw [hstep, if_neg hchunk]
        constructor
        · intro hfalse
          exact absurd hfalse (by simp)
        intro hall
        exfalso
        apply hchunk
        rw [slice_chunk_iff a b hwa hwb hLen i]
        exact congrArg (List.take maxLeafSize) hall
    · have hstop : equalChunks a b i = true := by
        rw [equalChunks, if_neg hlt]
      rw [hstop]
      have hA : a.toList.drop i = [] :=
        List.drop_eq_nil_of_le (by rw [toList_length hwa]; omega)
      have hB : b.toList.drop i = [] :=
        List.drop_eq_nil_of_le (by rw [toList_length hwb]; omega)
      rw [hA, hB]
      exact ⟨fun _ => rfl, fun _ => rfl⟩

/-- Go `Equal` agrees with byte-sequence equality on well-formed ropes. -/
lemma equal_spec (a b : Rope) (hwa : a.wf = true) (hwb : b.wf = true) :
    (equal a b = true ↔ a.toList = b.toList) := by
  rw [equal]
  by_cases hab : a = b
  · subst hab
    exact ⟨fun _ => rfl, fun _ => by rw [if_pos rfl]⟩
  · rw [if_neg hab]
    by_cases hLen : a.length ≠ b.length
    · rw [if_pos hLen]
      constructor
      · intro hfalse
        exact absurd hfalse (by simp)
      intro hc
      exact absurd (by rw [← toList_length hwa, ← toList_length hwb, hc]) hLen
    · rw [if_neg hLen]
      have hLen2 : a.length = b.length := by omega
      have h := equalChunks_spec a b hwa hwb hLen2 0
      rwa [List.drop_zero, List.drop_zero] at h

/-! ### A reachable rope that stays unbalanced and grows beyond depth 64

Starting from a 4097-byte rope, repeatedly appending a single byte builds
a left-leaning chain: every append exceeds `maxLeafSize`, and as soon as
the chain is deep enough to be unbalanced its child depths differ by more
than `balanceFactor`, so `rebalanceIfNeeded` never rebuilds it. -/

/-- The rope obtained from `NewString` of 4097 copies of byte 97 by `n`
single-byte `Append`s. -/
def badRope : Nat → Rope
  | 0 => .leaf (List.replicate 4097 97)
  | n + 1 => (badRope n).append (.leaf [97])

/-- The explicit shape of `badRope`: a left chain of concat nodes. -/
def chainR : Nat → Rope
  | 0 => .leaf (List.replicate 4097 97)
  | n + 1 => .node (4097 + (n + 1)) (n + 1) (chainR n) (.leaf [97])

lemma chainR_length (n : Nat) : (chainR n).length = 4097 + n := by
  cases n with
  | zero =>
      show (List.replicate 4097 97).length = 4097 + 0
      rw [List.length_replicate]
  | succ k => rfl

lemma chainR_depth (n : Nat) : (chainR n).depth = n := by
  cases n with
  | zero => rfl
  | succ k => rfl

lemma chain_step (n : Nat) : (chainR n).append (.leaf [97]) = chainR (n + 1) := by
  have hlen := chainR_length n
  have hdep := chainR_depth n
  have hleaf : (Rope.leaf [97]).length = 1 := rfl
  have hdleaf : (Rope.leaf [97]).depth = 0 := rfl
  have hguard :
      ((Rope.node ((chainR n).length + (Rope.leaf [97]).length)
          (max (chainR n).depth (Rope.leaf [97]).depth + 1) (chainR n) (.leaf [97])).isLeaf
        || (Rope.node ((chainR n).length + (Rope.leaf [97]).length)
            (max (chainR n).depth (Rope.leaf [97]).depth + 1) (chainR n) (.leaf [97])).isBalanced
        || decide (absDiff (chainR n).depth (Rope.leaf [97]).depth > balanceFactor)) = true := by
    rcases le_or_lt n 8 with h8 | h9
    · have hbal : (Rope.node ((chainR n).length + (Rope.leaf [97]).length)
          (max (chainR n).depth (Rope.leaf [97]).depth + 1) (chainR n) (.leaf [97])).isBalanced
          = true := by
        have hd : (Rope.node ((chainR n).length + (Rope.leaf [97]).length)
            (max (chainR n).depth (Rope.leaf [97]).depth + 1) (chainR n) (.leaf [97])).depth
            = n + 1 := by
          show max (chainR n).depth (Rope.leaf [97]).depth + 1 = n + 1
          rw [hdep, hdleaf]
          omega
        have hl : (Rope.node ((chainR n).length + (Rope.leaf [97]).length)
            (max (chainR n).depth (Rope.leaf [97]).depth + 1) (chainR n) (.leaf [97])).length
            = 4098 + n := by
          show (chainR n).length + (Rope.leaf [97]).length = 4098 + n
          rw [hlen, hleaf]
          omega
        rw [isBalanced, hd, hl, if_neg (by interval_cases n <;> decide),
          if_neg (by simp [isLeaf])]
        rw [decide_eq_true_eq]
        interval_cases n <;> decide
      rw [hbal]
      simp
    · have hdiff : absDiff (chainR n).depth (Rope.leaf [97]).depth = n := by
        rw [absDiff, hdep, hdleaf]
        omega
      rw [hdiff]
      have hdec : decide (n > balanceFactor) = true := by
        rw [decide_eq_true_eq]
        show n > 8
        omega
      rw [hdec]
      simp
  rw [append, appendG, if_neg (by rw [hlen]; omega),
    if_neg (by rw [hleaf]; omega),
    if_neg (by rw [hlen, hleaf]; show ¬(4097 + n + 1 ≤ 4096); omega),
    if_pos hguard]
  show Rope.node _ _ _ _ = chainR (n + 1)
  rw [chainR]
  congr 1
  · rw [hlen, hleaf]
    omega
  · rw [hdep, hdleaf]
    omega

lemma badRope_eq (n : Nat) : badRope n = chainR n := by
  induction n with
  | zero => rfl
  | succ k ih =>
      show (badRope k).append (.leaf [97]) = chainR (k + 1)
      rw [ih, chain_step]

lemma badRope_reachable (n : Nat) : Reachable (badRope n) := by
  induction n with
  | zero => exact Reachable.fromBytes _
  | succ k ih => exact Reachable.append ih (Reachable.fromBytes _)

/-! ### The claims -/

/-- C1: for every well-formed rope `r` and every index `0 ≤ at ≤ length r`,
`Split` succeeds and returns a pair whose lengths sum to `r`'s length and
whose byte concatenation equals `r`'s byte sequence. -/
theorem claim_C1_split_preserves (r : Rope) (hwf : r.wf = true) (i : Int)
    (h0 : 0 ≤ i) (h1 : i ≤ (r.length : Int)) :
    ∃ l rr, r.split i = some (l, rr) ∧ l.length + rr.length = r.length ∧
      l.toList ++ rr.toList = r.toList := by
  obtain ⟨l, rr, e, _, _, hlen, hcat, _, _⟩ := split_ok r hwf i h0 h1
  exact ⟨l, rr, e, hlen, hcat⟩

theorem claim_C1_split_preserves_witness :
    (Rope.node 5 1 (.leaf [104, 101, 108]) (.leaf [108, 111])).wf = true ∧
    (0 : Int) ≤ 4 ∧
    (4 : Int) ≤ ((Rope.node 5 1 (.leaf [104, 101, 108]) (.leaf [108, 111])).length : Int) ∧
    (∃ l rr, (Rope.node 5 1 (.leaf [104, 101, 108]) (.leaf [108, 111])).split 4
        = some (l, rr) ∧
      l.length + rr.length = (Rope.node 5 1 (.leaf [104, 101, 108]) (.leaf [108, 111])).length ∧
      l.toList ++ rr.toList
        = (Rope.node 5 1 (.leaf [104, 101, 108]) (.leaf [108, 111])).toList) :=
  ⟨by decide, by decide, by decide,
    claim_C1_split_preserves _ (by decide) 4 (by decide) (by decide)⟩

/-- C2: `Append` concatenates the byte sequences and adds the lengths, for
well-formed ropes. -/
theorem claim_C2_append_bytes (a b : Rope) (ha : a.wf = true) (hb : b.wf = true) :
    (a.append b).toList = a.toList ++ b.toList ∧
    (a.append b).length = a.length + b.length :=
  ⟨append_toList ha hb, append_length ha hb⟩

theorem claim_C2_append_bytes_witness :
    (Rope.leaf [102, 111, 111]).wf = true ∧ (Rope.leaf [98, 97, 114]).wf = true ∧
    (((Rope.leaf [102, 111, 111]).append (.leaf [98, 97, 114])).toList
        = (Rope.leaf [102, 111, 111]).toList ++ (Rope.leaf [98, 97, 114]).toList ∧
      ((Rope.leaf [102, 111, 111]).append (.leaf [98, 97, 114])).length
        = (Rope.leaf [102, 111, 111]).length + (Rope.leaf [98, 97, 114]).length) :=
  ⟨rfl, rfl, claim_C2_append_bytes _ _ rfl rfl⟩

/-- C3, counterexample: `badRope 70` is reachable from `NewString` by 70
public `Append`s, yet the balance oracle rejects it and its depth is 70,
beyond `maxDepth = 64` — `rebalanceIfNeeded` skips rebalancing because the
child depths differ by more than `balanceFactor`, so balance is never
restored along this sequence. -/
theorem claim_C3_counterexample :
    Reachable (badRope 70) ∧ isBalanced (badRope 70) = false ∧
      maxDepth < (badRope 70).depth :=
  ⟨badRope_reachable 70, by rw [badRope_eq]; decide, by rw [badRope_eq]; decide⟩

/-- C3, amended: when `Append` builds a concat node that the oracle judges
unbalanced AND whose children's depths differ by at most
`balanceFactor = 8`, it returns the rebalanced rebuilt tree (the result of
`Rebalance` on that node); unbalanced nodes with a larger child-depth
difference are returned unrebalanced. -/
theorem claim_C3_amended (a b : Rope)
    (h0 : a.length ≠ 0) (h1 : b.length ≠ 0)
    (h2 : maxLeafSize < a.length + b.length)
    (hunb : isBalanced (.node (a.length + b.length) (max a.depth b.depth + 1) a b) = false)
    (hdiff : absDiff a.depth b.depth ≤ balanceFactor) :
    a.append b = rebalance (.node (a.length + b.length) (max a.depth b.depth + 1) a b) := by
  rw [append, appendG, if_neg h0, if_neg h1, if_neg (by omega),
    if_neg (by simp [isLeaf, hunb, Nat.not_lt.mpr hdiff]),
    rebalance, if_neg (by simp [hunb])]
  exact if_neg (by simp [hunb])

theorem claim_C3_amended_witness :
    (Rope.node 3900 16 (.leaf []) (.leaf [])).length ≠ 0 ∧
    (Rope.node 200 9 (.leaf []) (.leaf [])).length ≠ 0 ∧
    maxLeafSize < (Rope.node 3900 16 (.leaf []) (.leaf [])).length
      + (Rope.node 200 9 (.leaf []) (.leaf [])).length ∧
    isBalanced (.node
      ((Rope.node 3900 16 (.leaf []) (.leaf [])).length
        + (Rope.node 200 9 (.leaf []) (.leaf [])).length)
      (max (Rope.node 3900 16 (.leaf []) (.leaf [])).depth
        (Rope.node 200 9 (.leaf []) (.leaf [])).depth + 1)
      (Rope.node 3900 16 (.leaf []) (.leaf []))
      (Rope.node 200 9 (.leaf []) (.leaf []))) = false ∧
    absDiff (Rope.node 3900 16 (.leaf []) (.leaf [])).depth
      (Rope.node 200 9 (.leaf []) (.leaf [])).depth ≤ balanceFactor ∧
    (Rope.node 3900 16 (.leaf []) (.leaf [])).append
        (Rope.node 200 9 (.leaf []) (.leaf []))
      = rebalance (.node
          ((Rope.node 3900 16 (.leaf []) (.leaf [])).length
            + (Rope.node 200 9 (.leaf []) (.leaf [])).length)
          (max (Rope.node 3900 16 (.leaf []) (.leaf [])).depth
            (Rope.node 200 9 (.leaf []) (.leaf [])).depth + 1)
          (Rope.node 3900 16 (.leaf []) (.leaf []))
          (Rope.node 200 9 (.leaf []) (.leaf []))) :=
  ⟨by decide, by decide, by decide, by decide, by decide,
    claim_C3_amended _ _ (by decide) (by decide) (by decide) (by decide) (by decide)⟩

/-- C4: `ReadAt` on a well-formed rope with a buffer of length `plen` at
offset `off ≥ 0` reads `n = min(plen, max(0, length - off))` bytes
(natural subtraction is the truncated difference), fills the buffer prefix
with exactly the rope's bytes starting at `off`, and returns `io.EOF` iff
`n < plen`. -/
theorem claim_C4_readAt (r : Rope) (hwf : r.wf = true) (plen off : Nat) :
    (readAt r plen off).1 = min plen (r.length - off) ∧
    (readAt r plen off).2.1 = (r.toList.drop off).take ((readAt r plen off).1) ∧
    ((readAt r plen off).2.2 = true ↔ (readAt r plen off).1 < plen) := by
  rw [readAt_spec r hwf]
  refine ⟨rfl, rfl, ?_⟩
  simp

theorem claim_C4_readAt_witness :
    (Rope.node 5 1 (.leaf [104, 101]) (.leaf [108, 108, 111])).wf = true ∧
    ((readAt (Rope.node 5 1 (.leaf [104, 101]) (.leaf [108, 108, 111])) 3 4).1
        = min 3 ((Rope.node 5 1 (.leaf [104, 101]) (.leaf [108, 108, 111])).length - 4) ∧
      (readAt (Rope.node 5 1 (.leaf [104, 101]) (.leaf [108, 108, 111])) 3 4).2.1
        = ((Rope.node 5 1 (.leaf [104, 101]) (.leaf [108, 108, 111])).toList.drop 4).take
            ((readAt (Rope.node 5 1 (.leaf [104, 101]) (.leaf [108, 108, 111])) 3 4).1) ∧
      ((readAt (Rope.node 5 1 (.leaf [104, 101]) (.leaf [108, 108, 111])) 3 4).2.2 = true ↔
        (readAt (Rope.node 5 1 (.leaf [104, 101]) (.leaf [108, 108, 111])) 3 4).1 < 3)) :=
  ⟨by decide, claim_C4_readAt _ (by decide) 3 4⟩

/-- C5: on a well-formed rope, `Index` with an index outside `[0, length)`
and `Split` with an index outside `[0, length]` both fail (the Go code
panics with an index-out-of-range error at the offending leaf access,
which surfaces to the caller; the failure is modeled by `none`). -/
theorem claim_C5_oob (r : Rope) (hwf : r.wf = true) (i j : Int)
    (hi : i < 0 ∨ (r.length : Int) ≤ i) (hj : j < 0 ∨ (r.length : Int) < j) :
    r.index i = none ∧ r.split j = none :=
  ⟨index_oob r hwf i hi, split_oob r hwf j hj⟩

theorem claim_C5_oob_witness :
    (Rope.leaf [42]).wf = true ∧
    ((5 : Int) < 0 ∨ ((Rope.leaf [42]).length : Int) ≤ 5) ∧
    ((-1 : Int) < 0 ∨ ((Rope.leaf [42]).length : Int) < -1) ∧
    ((Rope.leaf [42]).index 5 = none ∧ (Rope.leaf [42]).split (-1) = none) :=
  ⟨by decide, by decide, by decide,
    claim_C5_oob _ (by decide) 5 (-1) (by decide) (by decide)⟩

/-- C6: evaluation of `Slice` at the inputs of the repository's own
`TestSlice` (`rope3.Slice(1, 40)` on the 5-byte rope `"hel" ++ "lo"`):
the result is NOT the clamped 4-byte window `"ello"` the test expects, but
a 39-byte buffer holding `"ello"` followed by 35 zero bytes. -/
theorem claim_C6_slice_padding :
    ((Rope.node 5 1 (.leaf [104, 101, 108]) (.leaf [108, 111])).slice 1 40).length = 39 ∧
    (Rope.node 5 1 (.leaf [104, 101, 108]) (.leaf [108, 111])).slice 1 40
      = [101, 108, 108, 111] ++ List.replicate 35 0 ∧
    (Rope.node 5 1 (.leaf [104, 101, 108]) (.leaf [108, 111])).slice 1 40
      ≠ [101, 108, 108, 111] := by
  have h := slice_spec (Rope.node 5 1 (.leaf [104, 101, 108]) (.leaf [108, 111]))
    (by decide) 1 40
  rw [h]
  refine ⟨by decide, by decide, by decide⟩

/-- C7: `Reader.Read` returns exactly the `(n, bytes, err)` of `ReadAt` at
the reader's current position, and the new position advances by `n`
exactly when no error occurred — on `io.EOF` it is left unchanged. -/
theorem claim_C7_reader (r : Rope) (pos plen : Nat) :
    (readerRead r pos plen).1 = readAt r plen pos ∧
    (readerRead r pos plen).2 =
      (if (readAt r plen pos).2.2 = true then pos else pos + (readAt r plen pos).1) :=
  ⟨rfl, rfl⟩

/-- C8: on well-formed ropes, `Equal` returns true iff the byte sequences
are equal (the chunked `Slice`-based comparison agrees with byte-at-a-time
comparison), and in particular every rope equals `NewString` of its own
bytes, regardless of tree shape. -/
theorem claim_C8_equal (a b : Rope) (ha : a.wf = true) (hb : b.wf = true) :
    (equal a b = true ↔ a.toList = b.toList) ∧
      equal a (.leaf a.toList) = true := by
  refine ⟨equal_spec a b ha hb, ?_⟩
  exact (equal_spec a (.leaf a.toList) ha rfl).mpr rfl

theorem claim_C8_equal_witness :
    (Rope.node 5 1 (.leaf [104, 101, 108]) (.leaf [108, 111])).wf = true ∧
    (Rope.leaf [104, 101, 108, 108, 111]).wf = true ∧
    ((equal (Rope.node 5 1 (.leaf [104, 101, 108]) (.leaf [108, 111]))
          (Rope.leaf [104, 101, 108, 108, 111]) = true ↔
        (Rope.node 5 1 (.leaf [104, 101, 108]) (.leaf [108, 111])).toList
          = (Rope.leaf [104, 101, 108, 108, 111]).toList) ∧
      equal (Rope.node 5 1 (.leaf [104, 101, 108]) (.leaf [108, 111]))
        (.leaf (Rope.node 5 1 (.leaf [104, 101, 108]) (.leaf [108, 111])).toList) = true) :=
  ⟨rfl, rfl, claim_C8_equal _ _ rfl rfl⟩

/-- C9: on a well-formed rope, neither part returned by a successful
`Split` at an index in `[0, length]` is deeper than the original rope. -/
theorem claim_C9_split_depth (r : Rope) (hwf : r.wf = true) (i : Int)
    (h0 : 0 ≤ i) (h1 : i ≤ (r.length : Int)) (l rr : Rope)
    (he : r.split i = some (l, rr)) :
    l.depth ≤ r.depth ∧ rr.depth ≤ r.depth := by
  obtain ⟨l', rr', e, _, _, _, _, hd1, hd2⟩ := split_ok r hwf i h0 h1
  rw [he] at e
  simp only [Option.some.injEq, Prod.mk.injEq] at e
  obtain ⟨rfl, rfl⟩ := e
  exact ⟨hd1, hd2⟩

theorem claim_C9_split_depth_witness :
    (Rope.node 5 1 (.leaf [104, 101, 108]) (.leaf [108, 111])).wf = true ∧
    (0 : Int) ≤ 3 ∧
    (3 : Int) ≤ ((Rope.node 5 1 (.leaf [104, 101, 108]) (.leaf [108, 111])).length : Int) ∧
    (Rope.node 5 1 (.leaf [104, 101, 108]) (.leaf [108, 111])).split 3
      = some (.leaf [104, 101, 108], .leaf [108, 111]) ∧
    ((Rope.leaf [104, 101, 108]).depth
        ≤ (Rope.node 5 1 (.leaf [104, 101, 108]) (.leaf [108, 111])).depth ∧
      (Rope.leaf [108, 111]).depth
        ≤ (Rope.node 5 1 (.leaf [104, 101, 108]) (.leaf [108, 111])).depth) :=
  ⟨by decide, by decide, by decide, by decide,
    claim_C9_split_depth _ (by decide) 3 (by decide) (by decide) _ _ (by decide)⟩

/-- C10: on a well-formed rope, for `0 ≤ a ≤ b` the total `Slice` never
fails and returns a buffer of length exactly `b - a` holding the rope's
bytes from `a` on, padded with zero bytes at every position at or beyond
the rope's length (the `ReadAt` error is discarded). -/
theorem claim_C10_slice_total (r : Rope) (hwf : r.wf = true) (a b : Nat)
    (hab : a ≤ b) :
    (slice r a b).length = b - a ∧
    slice r a b = (r.toList.drop a ++ List.replicate (b - a) 0).take (b - a) := by
  have h := slice_spec r hwf a b
  refine ⟨?_, h⟩
  rw [h, List.length_take, List.length_append, List.length_replicate]
  omega

theorem claim_C10_slice_total_witness :
    (Rope.leaf [1, 2, 3, 4, 5]).wf = true ∧ 1 ≤ 40 ∧
    (((Rope.leaf [1, 2, 3, 4, 5]).slice 1 40).length = 40 - 1 ∧
      (Rope.leaf [1, 2, 3, 4, 5]).slice 1 40
        = ((Rope.leaf [1, 2, 3, 4, 5]).toList.drop 1
            ++ List.replicate (40 - 1) 0).take (40 - 1)) :=
  ⟨rfl, by decide,
    claim_C10_slice_total (Rope.leaf [1, 2, 3, 4, 5]) rfl 1 40 (by decide)⟩

end Rope

end RopeGo
